import Mathlib

/-
Verification of the UPC/EAN one-dimensional barcode reader core
(`src/oned/ODUPCEANReader.h`): guard-pattern search, digit matching and
the standard modulo-10 checksum.  The repository ships only the header,
so the bodies of the static helpers are modelled from the design
specification; the template wrappers are embedded from the header itself.
A row of pixels is a `List Bool` (`true` = black module), failure of a
search is `Option.none` (the reader's `NotFound`), and the checksum
validator returns the full `ErrorStatus` taxonomy.
-/

namespace ZXing

namespace OneD

/-- Outcome taxonomy of the reader, from the header's `enum class ErrorStatus`
usage: success (`NoError`) or one of the three failure kinds. -/
inductive ErrorStatus where
  | NoError
  | NotFound
  | ChecksumError
  | FormatError
deriving DecidableEq

/-- Numeric value of an ASCII digit character (modelled from the spec's
"decoded digit string contains only the characters between 0 and 9"). -/
def digitVal (c : Char) : Nat :=
  c.toNat - 48

/-- Modelled from the spec: the alternating 3/1 weighted sum used by the
checksum validator, walking a digit list with the current weight first
(the recursion flips the weight between 3 and 1). -/
def altWeightedSum : Nat → List Nat → Nat
  | _, [] => 0
  | w, d :: ds => w * d + altWeightedSum (4 - w) ds

/-- Modelled from the spec: `CheckStandardUPCEANChecksum` (declared in the
header at line 103, body not under `src/`).  Rejects an empty or non-digit
string with `FormatError`; otherwise sums the non-check digits with
weights alternating 3 and 1 starting from the rightmost non-check digit,
adds the check digit, and accepts iff the total is divisible by 10. -/
def CheckStandardUPCEANChecksum (s : List Char) : ErrorStatus :=
  if s.isEmpty then ErrorStatus.FormatError
  else if !(s.all Char.isDigit) then ErrorStatus.FormatError
  else if (altWeightedSum 3 (s.map digitVal).dropLast.reverse +
      (s.map digitVal).getD ((s.map digitVal).length - 1) 0) % 10 = 0 then
    ErrorStatus.NoError
  else
    ErrorStatus.ChecksumError

/-- The spec's statement of the weighted checksum condition, written as an
indexed sum: weight 3 for digits at odd position-from-end, weight 1 for
even, plus the check digit itself. -/
def specWeightedTotal (ds : List Nat) : Nat :=
  (∑ i ∈ Finset.range (ds.length - 1),
      (if (ds.length - 1 - i) % 2 = 1 then 3 else 1) * ds.getD i 0)
    + ds.getD (ds.length - 1) 0

/-- Modelled from the spec: the start/end guard shape (bar-space-bar), used
by `FindStartGuardPattern` and `decodeEnd`; the constant itself lives in
the implementation file that is not under `src/`. -/
def START_GUARD : List Nat := [1, 1, 1]

/-- Modelled from the spec: the end guard shape checked by `decodeEnd`
(same bar-space-bar shape as the start guard). -/
def END_GUARD : List Nat := [1, 1, 1]

/-- Modelled from the spec: `MIDDLE_PATTERN`, the 5-element separator shape
declared in the header at line 125 (values from the UPC/EAN standard). -/
def MIDDLE_PATTERN : List Nat := [1, 1, 1, 1, 1]

/-- Modelled from the spec: `L_PATTERNS`, the ten odd-parity ("L") digit
encodings declared in the header at line 130, one four-run pattern per
digit 0-9 (values from the UPC/EAN standard). -/
def L_PATTERNS : List (List Nat) :=
  [[3, 2, 1, 1], [2, 2, 2, 1], [2, 1, 2, 2], [1, 4, 1, 1], [1, 1, 3, 2],
   [1, 2, 3, 1], [1, 1, 1, 4], [1, 3, 1, 2], [1, 2, 1, 3], [3, 1, 1, 2]]

/-- Modelled from the spec: `L_AND_G_PATTERNS`, declared in the header at
line 135: the ten L patterns followed by the ten even-parity ("G")
patterns, each G pattern being the reverse of the matching L pattern. -/
def L_AND_G_PATTERNS : List (List Nat) :=
  L_PATTERNS ++ L_PATTERNS.map List.reverse

/-- Helper of the run-length scan: accumulates the length `k` of the
current run of colour `c` and emits it when the colour changes. -/
def rleAux (c : Bool) (k : Nat) : List Bool → List Nat
  | [] => [k]
  | b :: t => if b = c then rleAux c (k + 1) t else k :: rleAux b 1 t

/-- Run-length decomposition of a pixel row: the lengths of the maximal
runs of equal colour, left to right. -/
def rle : List Bool → List Nat
  | [] => []
  | b :: t => rleAux b 1 t

/-- Index of the first pixel of colour `c` in a row suffix (distance from
the head), or `none` when the colour does not occur. -/
def findColorFrom (c : Bool) : List Bool → Option Nat
  | [] => none
  | b :: t => if b = c then some 0 else (findColorFrom c t).map (· + 1)

/-- First row index at or after `start` holding a pixel of colour `c`. -/
def nextIndexOfColor (row : List Bool) (start : Nat) (c : Bool) : Option Nat :=
  (findColorFrom c (row.drop start)).map (fun k => start + k)

/-- Modelled from the spec: measure `n` run-length counters starting at
`start` (the shared `RecordPattern` primitive used by `DecodeDigit`);
fails when the row holds fewer than `n` runs from that offset. -/
def recordRuns (row : List Bool) (start n : Nat) : Option (List Nat) :=
  let rs := rle (row.drop start)
  if n ≤ rs.length then some (rs.take n) else none

/-- Modelled from the spec: the per-position relative tolerance of the
guard matcher, written as the fraction 7/10 of a unit width (a calibration
constant whose exact value the spec leaves open; only nonnegativity
matters to the proved properties). -/
def INDIVIDUAL_TOLERANCE_NUM : Nat := 7

/-- Denominator of the per-position tolerance fraction. -/
def INDIVIDUAL_TOLERANCE_DEN : Nat := 10

/-- Modelled from the spec: the looser aggregate-deviation bound of the
guard matcher's two-tier policy, the fraction 12/25 of a unit width per
position (calibration constant). -/
def TOTAL_TOLERANCE_NUM : Nat := 12

/-- Denominator of the aggregate tolerance fraction. -/
def TOTAL_TOLERANCE_DEN : Nat := 25

/-- Modelled from the spec: two-tier acceptance test of a window `w` of
measured runs against a reference `pattern`.  The unit width is the span
`w.sum` divided by `pattern.sum`; each position's deviation from
`pattern[i] * unit` must stay within the per-position tolerance and the
aggregate deviation within the looser bound.  Both comparisons are cleared
of denominators (deviations are scaled by `pattern.sum`), keeping the
whole test in exact integer arithmetic, as in the original's scaled-int
variance computation. -/
def acceptGuard (w pattern : List Nat) : Bool :=
  decide (0 < pattern.sum) &&
    (((List.zip w pattern).map
        (fun p => Nat.dist (p.1 * pattern.sum) (p.2 * w.sum))).all fun d =>
      decide (INDIVIDUAL_TOLERANCE_DEN * d ≤ INDIVIDUAL_TOLERANCE_NUM * w.sum)) &&
    decide (TOTAL_TOLERANCE_DEN *
        ((List.zip w pattern).map
          (fun p => Nat.dist (p.1 * pattern.sum) (p.2 * w.sum))).sum ≤
      TOTAL_TOLERANCE_NUM * (pattern.length * w.sum))

/-- Modelled from the spec: the sliding loop of the guard finder over the
run decomposition `rs` starting at pixel column `pos`: test the window of
`pattern.length` runs, accept the first match, otherwise advance two runs
(to the next same-colour run boundary). -/
def guardLoop (pattern : List Nat) : Nat → List Nat → Option (Nat × Nat)
  | pos, [] =>
    if 0 < pattern.length then none
    else if acceptGuard [] pattern then some (pos, pos)
    else none
  | pos, [r] =>
    if 1 < pattern.length then none
    else if acceptGuard ([r].take pattern.length) pattern then
      some (pos, pos + ([r].take pattern.length).sum)
    else none
  | pos, r1 :: r2 :: rest =>
    if (r1 :: r2 :: rest).length < pattern.length then none
    else if acceptGuard ((r1 :: r2 :: rest).take pattern.length) pattern then
      some (pos, pos + ((r1 :: r2 :: rest).take pattern.length).sum)
    else guardLoop pattern (pos + r1 + r2) rest

/-- Modelled from the spec: the private `DoFindGuardPattern` declared in
the header at line 140 (body not under `src/`): skip to the first pixel of
the requested polarity and slide the window one run pair at a time,
returning the first accepted window's begin/end columns. -/
def DoFindGuardPattern (row : List Bool) (rowOffset : Nat) (whiteFirst : Bool)
    (pattern : List Nat) : Option (Nat × Nat) :=
  match nextIndexOfColor row rowOffset (!whiteFirst) with
  | none => none
  | some p => guardLoop pattern p (rle (row.drop p))

/-- The public container-level `FindGuardPattern` (header lines 90-93):
the template forwards to the private pattern search. -/
def FindGuardPattern (row : List Bool) (rowOffset : Nat) (whiteFirst : Bool)
    (pattern : List Nat) : Option (Nat × Nat) :=
  DoFindGuardPattern row rowOffset whiteFirst pattern

/-- The private pointer-based `FindGuardPattern` (header line 138): the
pattern is passed as a base pointer plus length, modelled as an index
function and a length. -/
def FindGuardPatternPtr (row : List Bool) (rowOffset : Nat) (whiteFirst : Bool)
    (pattern : Nat → Nat) (len : Nat) : Option (Nat × Nat) :=
  DoFindGuardPattern row rowOffset whiteFirst ((List.range len).map pattern)

/-- Modelled from the spec: `FindStartGuardPattern` (header line 88, body
not under `src/`): search for the start guard from the beginning of the
row, trying both polarity assumptions if needed. -/
def FindStartGuardPattern (row : List Bool) : Option (Nat × Nat) :=
  match DoFindGuardPattern row 0 false START_GUARD with
  | some r => some r
  | none => DoFindGuardPattern row 0 true START_GUARD

/-- Modelled from the spec: `decodeEnd` (header line 85, body not under
`src/`): verify the end guard anchored exactly at `endStart` (no sliding
search), with the same tolerance-based matching as the start guard. -/
def decodeEnd (row : List Bool) (endStart : Nat) : Option (Nat × Nat) :=
  if row.getD endStart false = true then
    match recordRuns row endStart END_GUARD.length with
    | none => none
    | some w =>
      if acceptGuard w END_GUARD then some (endStart, endStart + w.sum) else none
  else none

/-- The fixed-point scale of variance scores: scores are expressed in
hundredths of a unit width per position, as in the original's scaled
integer variance computation. -/
def PATTERN_SCALE : Nat := 100

/-- Modelled from the spec: the strict primary threshold of the digit
matcher's acceptance policy, 0.48 of a unit width at scale 100
(calibration constant). -/
def MAX_AVG_VARIANCE : Nat := 48

/-- Modelled from the spec: the ambiguity margin of the digit matcher at
scale 100: a near-tie within this margin of the best score is rejected. -/
def AMBIGUITY_MARGIN : Nat := 4

/-- Modelled from the spec: the normalized total variance score of the
measured counters against one reference digit pattern, at scale
`PATTERN_SCALE`: the sum of the absolute deviations from the ideal run
widths, measured in units and averaged over the positions.  Deviations
are cleared of denominators (scaled by the candidate's pattern sum), so
the score is the scaled integer
`PATTERN_SCALE * sum |c[i]*pattern.sum - p[i]*counters.sum| / (pattern.length * counters.sum)`
divided with rounding down; a degenerate candidate scores the maximal
`PATTERN_SCALE`. -/
def patternVariance (counters pattern : List Nat) : Nat :=
  if pattern.sum * (pattern.length * counters.sum) = 0 then PATTERN_SCALE
  else
    PATTERN_SCALE * ((List.zip counters pattern).map
        (fun p => Nat.dist (p.1 * pattern.sum) (p.2 * counters.sum))).sum
      / (pattern.length * counters.sum)

/-- Index and value of the first minimal element of a score list. -/
def argmin? : List Nat → Option (Nat × Nat)
  | [] => none
  | a :: t =>
    match argmin? t with
    | none => some (0, a)
    | some (j, b) => if a ≤ b then some (0, a) else some (j + 1, b)

/-- Modelled from the spec: the digit matcher's selection rule: take the
candidate with the lowest variance score, and accept it only if the score
is below the fixed maximum-variance threshold and no other candidate's
score lies within the ambiguity margin of it. -/
def selectBest (scores : List Nat) : Option Nat :=
  match argmin? scores with
  | none => none
  | some (i, v) =>
    if decide (v < MAX_AVG_VARIANCE) &&
        (List.range scores.length).all
          (fun j => (j == i) || decide (v + AMBIGUITY_MARGIN < scores.getD j 0))
    then some i
    else none

/-- The public container-level `DecodeDigit` (header lines 117-120),
body modelled from the spec: measure the four run counters of one digit
cell, score every candidate pattern, select the best under the two
thresholds; the digit value is the winning table index modulo 10 and the
returned offset is the first column after the fourth run. -/
def DecodeDigit (row : List Bool) (rowOffset : Nat) (patterns : List (List Nat)) :
    Option (Nat × List Nat × Nat) :=
  match recordRuns row rowOffset 4 with
  | none => none
  | some counters =>
    match selectBest (patterns.map (patternVariance counters)) with
    | none => none
    | some i => some (i % 10, counters, rowOffset + counters.sum)

/-- The private pointer-based `DecodeDigit` (header line 139): the pattern
table is passed as a base pointer plus count, modelled as an index
function and a count. -/
def DecodeDigitPtr (row : List Bool) (rowOffset : Nat) (patterns : Nat → List Nat)
    (patternCount : Nat) : Option (Nat × List Nat × Nat) :=
  DecodeDigit row rowOffset ((List.range patternCount).map patterns)

/-- A row carrying one digit cell: three white, two black, one white and
one black pixel, the scaled shape of the L pattern of digit 0. -/
def digitRow : List Bool :=
  [false, false, false, true, true, false, true]

/-- The run counters of `digitRow`. -/
def digitCounters : List Nat := [3, 2, 1, 1]

/-- A row holding an exact end guard at column 1. -/
def endRow2 : List Bool := [false, true, false, true]

/-- The middle separator rendered at unit width `u`: five alternating runs
of `u` pixels each, starting and ending white. -/
def scaledMiddleRow (u : Nat) : List Bool :=
  List.replicate u false ++ (List.replicate u true ++
    (List.replicate u false ++ (List.replicate u true ++ List.replicate u false)))

/-- The digit characters of the valid UPC-A example 036000291452. -/
def goodUPCA : List Char :=
  ['0', '3', '6', '0', '0', '0', '2', '9', '1', '4', '5', '2']

/-- The digit characters of the corrupted example 036000291451. -/
def badUPCA : List Char :=
  ['0', '3', '6', '0', '0', '0', '2', '9', '1', '4', '5', '1']

/-- The alternating weighted sum as an indexed sum: weight 3 on even
indices and weight 1 on odd indices (and the flipped pairing for the
walk that starts with weight 1). -/
theorem altWeightedSum_eq_sum (l : List Nat) :
    altWeightedSum 3 l =
        ∑ j ∈ Finset.range l.length, (if j % 2 = 0 then 3 else 1) * l.getD j 0 ∧
      altWeightedSum 1 l =
        ∑ j ∈ Finset.range l.length, (if j % 2 = 0 then 1 else 3) * l.getD j 0 := by
  induction l with
  | nil => simp [altWeightedSum]
  | cons a t ih =>
    have h3 : altWeightedSum 3 (a :: t) = 3 * a + altWeightedSum 1 t := by
      simp [altWeightedSum]
    have h1 : altWeightedSum 1 (a :: t) = 1 * a + altWeightedSum 3 t := by
      simp [altWeightedSum]
    have hlen : (a :: t).length = t.length + 1 := rfl
    constructor
    · rw [h3, ih.2, hlen, Finset.sum_range_succ']
      have hcongr :
          ∑ j ∈ Finset.range t.length,
              (if (j + 1) % 2 = 0 then 3 else 1) * (a :: t).getD (j + 1) 0 =
            ∑ j ∈ Finset.range t.length, (if j % 2 = 0 then 1 else 3) * t.getD j 0 := by
        refine Finset.sum_congr rfl fun j _ => ?_
        rcases Nat.mod_two_eq_zero_or_one j with h | h
        · have h2 : (j + 1) % 2 = 1 := by omega
          simp [h, h2]
        · have h2 : (j + 1) % 2 = 0 := by omega
          simp [h, h2]
      rw [hcongr]
      simp [Nat.add_comm]
    · rw [h1, ih.1, hlen, Finset.sum_range_succ']
      have hcongr :
          ∑ j ∈ Finset.range t.length,
              (if (j + 1) % 2 = 0 then 1 else 3) * (a :: t).getD (j + 1) 0 =
            ∑ j ∈ Finset.range t.length, (if j % 2 = 0 then 3 else 1) * t.getD j 0 := by
        refine Finset.sum_congr rfl fun j _ => ?_
        rcases Nat.mod_two_eq_zero_or_one j with h | h
        · have h2 : (j + 1) % 2 = 1 := by omega
          simp [h, h2]
        · have h2 : (j + 1) % 2 = 0 := by omega
          simp [h, h2]
      rw [hcongr]
      simp [Nat.add_comm]

/-- The checksum validator's accumulated total coincides with the spec's
indexed weighted sum. -/
theorem checksum_total_eq (ds : List Nat) (h : ds ≠ []) :
    altWeightedSum 3 ds.dropLast.reverse + ds.getD (ds.length - 1) 0 =
      specWeightedTotal ds := by
  have hlen : 0 < ds.length := List.length_pos.mpr h
  have hrevlen : ds.dropLast.reverse.length = ds.length - 1 := by simp
  rw [(altWeightedSum_eq_sum ds.dropLast.reverse).1, specWeightedTotal, hrevlen]
  congr 1
  rw [← Finset.sum_range_reflect
    (fun i => (if (ds.length - 1 - i) % 2 = 1 then 3 else 1) * ds.getD i 0) (ds.length - 1)]
  refine Finset.sum_congr rfl fun j hj => ?_
  have hj' : j < ds.length - 1 := Finset.mem_range.mp hj
  have hidx : ds.dropLast.reverse.getD j 0 = ds.getD (ds.length - 1 - 1 - j) 0 := by
    have hjr : j < ds.dropLast.reverse.length := by omega
    have hb : ds.length - 1 - 1 - j < ds.dropLast.length := by simp; omega
    have hb2 : ds.length - 1 - 1 - j < ds.length := by omega
    rw [List.getD_eq_getElem _ _ hjr, List.getD_eq_getElem _ _ hb2]
    rw [List.getElem_reverse]
    have : ds.dropLast.length - 1 - j = ds.length - 1 - 1 - j := by simp
    simp only [this]
    exact List.getElem_dropLast ds (ds.length - 1 - 1 - j) (by simp; omega)
  have harith : ds.length - 1 - (ds.length - 1 - 1 - j) = j + 1 := by omega
  rw [hidx, harith]
  rcases Nat.mod_two_eq_zero_or_one j with h2 | h2
  · have h3 : (j + 1) % 2 = 1 := by omega
    simp [h2, h3]
  · have h3 : (j + 1) % 2 = 0 := by omega
    simp [h2, h3]

/-- C1: for every digit string of the valid lengths (12-digit UPC-A or
13-digit EAN-13), `CheckStandardUPCEANChecksum` accepts iff the sum of the
non-check digits weighted alternately 3 and 1 from the rightmost non-check
digit, plus the check digit, is divisible by 10; in particular it accepts
036000291452 and returns `ChecksumError` for 036000291451. -/
theorem checkStandardUPCEANChecksum_accepts_iff (s : List Char)
    (hlen : s.length = 12 ∨ s.length = 13) (hd : s.all Char.isDigit = true) :
    (CheckStandardUPCEANChecksum s = ErrorStatus.NoError ↔
        specWeightedTotal (s.map digitVal) % 10 = 0) ∧
      CheckStandardUPCEANChecksum goodUPCA = ErrorStatus.NoError ∧
      CheckStandardUPCEANChecksum badUPCA = ErrorStatus.ChecksumError := by
  refine ⟨?_, by decide, by decide⟩
  have hne : s ≠ [] := by
    intro h
    subst h
    rcases hlen with h12 | h12 <;> simp at h12
  have hnemap : s.map digitVal ≠ [] := by simpa using hne
  rw [CheckStandardUPCEANChecksum]
  rw [if_neg (by simpa [List.isEmpty_iff] using hne)]
  rw [if_neg (by simp [hd])]
  rw [checksum_total_eq (s.map digitVal) hnemap]
  split
  · simp_all
  · simp_all

/-- C1 witness: the theorem applied to the valid 12-digit example. -/
theorem checkStandardUPCEANChecksum_accepts_iff_witness :
    (CheckStandardUPCEANChecksum goodUPCA = ErrorStatus.NoError ↔
        specWeightedTotal (goodUPCA.map digitVal) % 10 = 0) ∧
      CheckStandardUPCEANChecksum goodUPCA = ErrorStatus.NoError ∧
      CheckStandardUPCEANChecksum badUPCA = ErrorStatus.ChecksumError :=
  checkStandardUPCEANChecksum_accepts_iff goodUPCA (Or.inl (by decide)) (by decide)

/-- C2: an empty or non-digit input yields `FormatError`, and the outcome
`ChecksumError` can only arise on non-empty all-digit input. -/
theorem checkStandardUPCEANChecksum_format_error (s : List Char) :
    ((s = [] ∨ ∃ c ∈ s, c.isDigit = false) →
        CheckStandardUPCEANChecksum s = ErrorStatus.FormatError) ∧
      (CheckStandardUPCEANChecksum s = ErrorStatus.ChecksumError →
        s ≠ [] ∧ ∀ c ∈ s, c.isDigit = true) := by
  constructor
  · rintro (rfl | ⟨c, hc, hcd⟩)
    · rfl
    · rw [CheckStandardUPCEANChecksum]
      have hall : s.all Char.isDigit = false := by
        rw [Bool.eq_false_iff]
        intro hcontra
        have := List.all_eq_true.mp hcontra c hc
        simp [hcd] at this
      by_cases he : s.isEmpty
      · rw [if_pos he]
      · rw [if_neg he, if_pos (by simp [hall])]
  · intro h
    rw [CheckStandardUPCEANChecksum] at h
    by_cases he : s.isEmpty
    · rw [if_pos he] at h
      exact absurd h (by simp)
    · rw [if_neg he] at h
      by_cases ha : s.all Char.isDigit
      · exact ⟨by simpa [List.isEmpty_iff] using he, fun c hc => List.all_eq_true.mp ha c hc⟩
      · rw [if_pos (by simp [Bool.not_eq_true] at ha; simp [ha])] at h
        exact absurd h (by simp)

/-- C2 witness: the empty string is rejected with `FormatError`. -/
theorem checkStandardUPCEANChecksum_format_error_witness :
    CheckStandardUPCEANChecksum [] = ErrorStatus.FormatError :=
  (checkStandardUPCEANChecksum_format_error []).1 (Or.inl rfl)

/-- The run-length scan accounts for every pixel: the emitted runs sum to
the accumulator plus the number of remaining pixels. -/
theorem rleAux_sum (t : List Bool) : ∀ c k, (rleAux c k t).sum = k + t.length := by
  induction t with
  | nil => intro c k; simp [rleAux]
  | cons b t ih =>
    intro c k
    rw [rleAux]
    split
    · rw [ih]
      simp
      omega
    · simp [ih]
      omega

/-- The run lengths of a row sum to the row length. -/
theorem rle_sum (l : List Bool) : (rle l).sum = l.length := by
  cases l with
  | nil => rfl
  | cons b t =>
    rw [rle, rleAux_sum]
    simp [Nat.add_comm]

/-- Every run emitted by the scan is positive when the accumulator is. -/
theorem rleAux_pos (t : List Bool) : ∀ c k, 0 < k → ∀ x ∈ rleAux c k t, 0 < x := by
  induction t with
  | nil => intro c k hk x hx; simp [rleAux] at hx; omega
  | cons b t ih =>
    intro c k hk x hx
    rw [rleAux] at hx
    split at hx
    · exact ih _ _ (by omega) x hx
    · rcases List.mem_cons.mp hx with rfl | hx
      · exact hk
      · exact ih _ _ (by omega) x hx

/-- Every run length of a row is positive. -/
theorem rle_pos (l : List Bool) : ∀ x ∈ rle l, 0 < x := by
  cases l with
  | nil => simp [rle]
  | cons b t => exact rleAux_pos t b 1 (by omega)

/-- The scan emits at most one run per remaining pixel, plus the open run. -/
theorem rleAux_length (t : List Bool) : ∀ c k, (rleAux c k t).length ≤ t.length + 1 := by
  induction t with
  | nil => intro c k; simp [rleAux]
  | cons b t ih =>
    intro c k
    rw [rleAux]
    split
    · exact (ih _ _).trans (by simp)
    · simpa using ih b 1

/-- A row has at most as many runs as pixels. -/
theorem rle_length (l : List Bool) : (rle l).length ≤ l.length := by
  cases l with
  | nil => simp [rle]
  | cons b t => simpa [rle] using rleAux_length t b 1

/-- Scanning a replicated block of the current colour only grows the
accumulator. -/
theorem rleAux_replicate (n : Nat) :
    ∀ (c : Bool) (k : Nat) (l : List Bool),
      rleAux c k (List.replicate n c ++ l) = rleAux c (k + n) l := by
  induction n with
  | zero => intro c k l; simp
  | succ n ih =>
    intro c k l
    rw [List.replicate_succ, List.cons_append, rleAux, if_pos rfl, ih]
    have : k + 1 + n = k + (n + 1) := by omega
    rw [this]

/-- The run decomposition of a positive block of one colour followed by a
row of the opposite leading colour. -/
theorem rle_replicate_append (c : Bool) (n : Nat) (l : List Bool)
    (hn : 0 < n) (hl : l.head? ≠ some c) :
    rle (List.replicate n c ++ l) = n :: rle l := by
  obtain ⟨m, rfl⟩ : ∃ m, n = m + 1 := ⟨n - 1, by omega⟩
  rw [List.replicate_succ, List.cons_append, rle, rleAux_replicate]
  cases l with
  | nil =>
    simp [rleAux, rle]
    omega
  | cons b t =>
    have hb : b ≠ c := by
      intro h
      exact hl (by simp [h])
    rw [rleAux, if_neg (by simpa using hb), rle]
    have : 1 + m = m + 1 := by omega
    rw [this]

/-- The run decomposition of a single replicated block. -/
theorem rle_replicate (c : Bool) (n : Nat) (hn : 0 < n) :
    rle (List.replicate n c) = [n] := by
  have := rle_replicate_append c n [] hn (by simp)
  simpa [rle] using this

/-- The head of a positively replicated block prefix. -/
theorem head?_replicate_append (c : Bool) (n : Nat) (l : List Bool) (hn : 0 < n) :
    (List.replicate n c ++ l).head? = some c := by
  obtain ⟨m, rfl⟩ : ∃ m, n = m + 1 := ⟨n - 1, by omega⟩
  rw [List.replicate_succ, List.cons_append, List.head?_cons]

/-- A found colour index is inside the searched suffix. -/
theorem findColorFrom_lt (c : Bool) (l : List Bool) :
    ∀ k, findColorFrom c l = some k → k < l.length := by
  induction l with
  | nil => intro k h; simp [findColorFrom] at h
  | cons b t ih =>
    intro k h
    rw [findColorFrom] at h
    split at h
    · simp at h
      subst h
      simp
    · rcases Option.map_eq_some'.mp h with ⟨k', hk', rfl⟩
      have := ih k' hk'
      simp
      omega

/-- Searching for colour `c` skips a block of the opposite colour. -/
theorem findColorFrom_replicate (c : Bool) (l : List Bool) (h : l.head? = some c) :
    ∀ b, findColorFrom c (List.replicate b (!c) ++ l) = some b := by
  intro b
  induction b with
  | zero =>
    cases l with
    | nil => simp at h
    | cons x t =>
      have : x = c := by simpa using h
      simp [findColorFrom, this]
  | succ b ih =>
    rw [List.replicate_succ, List.cons_append, findColorFrom,
      if_neg (by simp), ih]
    rfl

/-- A found pixel index lies strictly inside the row. -/
theorem nextIndexOfColor_lt (row : List Bool) (start : Nat) (c : Bool) (p : Nat)
    (h : nextIndexOfColor row start c = some p) : p < row.length := by
  rw [nextIndexOfColor] at h
  rcases Option.map_eq_some'.mp h with ⟨k, hk, rfl⟩
  have := findColorFrom_lt c (row.drop start) k hk
  simp at this
  omega

/-- A prefix of a list of naturals sums to at most the whole list. -/
theorem sum_take_le (l : List Nat) (n : Nat) : (l.take n).sum ≤ l.sum := by
  conv_rhs => rw [← List.take_append_drop n l]
  rw [List.sum_append]
  omega

/-- A nonempty prefix of a positive list has positive sum. -/
theorem sum_take_pos (l : List Nat) (n : Nat) (hn : 0 < n) (hl : l ≠ [])
    (hpos : ∀ x ∈ l, 0 < x) : 0 < (l.take n).sum := by
  obtain ⟨m, rfl⟩ : ∃ m, n = m + 1 := ⟨n - 1, by omega⟩
  cases l with
  | nil => exact absurd rfl hl
  | cons a t =>
    rw [List.take_succ_cons, List.sum_cons]
    have := hpos a (by simp)
    omega

/-- A window too short for the pattern is rejected by the sliding loop. -/
theorem guardLoop_short (pattern : List Nat) (pos : Nat) (rs : List Nat)
    (h : rs.length < pattern.length) : guardLoop pattern pos rs = none := by
  match rs with
  | [] =>
    rw [guardLoop, if_pos (by simpa using h)]
  | [r] =>
    rw [guardLoop, if_pos (by simpa using h)]
  | r1 :: r2 :: rest =>
    rw [guardLoop, if_pos h]

/-- Any range returned by the sliding loop is nonempty and stays inside
the span of the runs it was given. -/
theorem guardLoop_bounds (n : Nat) :
    ∀ (rs pattern : List Nat) (pos b e : Nat),
      rs.length ≤ n → pattern ≠ [] → (∀ x ∈ rs, 0 < x) →
      guardLoop pattern pos rs = some (b, e) →
      pos ≤ b ∧ b < e ∧ e ≤ pos + rs.sum := by
  induction n with
  | zero =>
    intro rs pattern pos b e hlen hp hpos heq
    have hrs : rs = [] := List.length_eq_zero.mp (by omega)
    subst hrs
    rw [guardLoop, if_pos (List.length_pos.mpr hp)] at heq
    exact absurd heq (by simp)
  | succ n ih =>
    intro rs pattern pos b e hlen hp hpos heq
    have hplen : 0 < pattern.length := List.length_pos.mpr hp
    match rs with
    | [] =>
      rw [guardLoop, if_pos hplen] at heq
      exact absurd heq (by simp)
    | [r] =>
      rw [guardLoop] at heq
      split at heq
      · exact absurd heq (by simp)
      · split at heq
        · have hwpos : 0 < ([r].take pattern.length).sum :=
            sum_take_pos [r] pattern.length hplen (by simp) hpos
          have hwle : ([r].take pattern.length).sum ≤ [r].sum := sum_take_le _ _
          simp at heq
          omega
        · exact absurd heq (by simp)
    | r1 :: r2 :: rest =>
      rw [guardLoop] at heq
      split at heq
      · exact absurd heq (by simp)
      · split at heq
        · have hwpos : 0 < ((r1 :: r2 :: rest).take pattern.length).sum :=
            sum_take_pos _ pattern.length hplen (by simp) hpos
          have hwle : ((r1 :: r2 :: rest).take pattern.length).sum ≤ (r1 :: r2 :: rest).sum :=
            sum_take_le _ _
          simp at heq
          omega
        · have hrest : rest.length ≤ n := by
            simp at hlen
            omega
          have hposr : ∀ x ∈ rest, 0 < x := fun x hx => hpos x (by simp [hx])
          have := ih rest pattern (pos + r1 + r2) b e hrest hp hposr heq
          simp
          omega

/-- Any range returned by the private guard search is nonempty and lies
inside the row. -/
theorem doFindGuardPattern_bounds (row : List Bool) (rowOffset : Nat)
    (whiteFirst : Bool) (pattern : List Nat) (b e : Nat) (hp : pattern ≠ [])
    (h : DoFindGuardPattern row rowOffset whiteFirst pattern = some (b, e)) :
    b < e ∧ e ≤ row.length := by
  rw [DoFindGuardPattern] at h
  rcases hn : nextIndexOfColor row rowOffset (!whiteFirst) with _ | p
  · rw [hn] at h
    exact absurd h (by simp)
  · rw [hn] at h
    have hplt : p < row.length := nextIndexOfColor_lt row rowOffset (!whiteFirst) p hn
    have hbound := guardLoop_bounds (rle (row.drop p)).length (rle (row.drop p)) pattern
      p b e le_rfl hp (rle_pos _) h
    have hsum : (rle (row.drop p)).sum = row.length - p := by
      rw [rle_sum]
      simp
    omega

/-- A row shorter than the pattern's run count cannot hold it. -/
theorem doFindGuardPattern_short (row : List Bool) (rowOffset : Nat)
    (whiteFirst : Bool) (pattern : List Nat) (h : row.length < pattern.length) :
    DoFindGuardPattern row rowOffset whiteFirst pattern = none := by
  rw [DoFindGuardPattern]
  rcases hn : nextIndexOfColor row rowOffset (!whiteFirst) with _ | p
  · rfl
  · have hlen : (rle (row.drop p)).length < pattern.length := by
      have h1 := rle_length (row.drop p)
      have h2 : (row.drop p).length ≤ row.length := by simp
      omega
    exact guardLoop_short pattern p _ hlen

/-- A nonempty list of positive naturals has positive sum. -/
theorem sum_pos_of_pos (l : List Nat) (hne : l ≠ []) (hpos : ∀ x ∈ l, 0 < x) :
    0 < l.sum := by
  cases l with
  | nil => exact absurd rfl hne
  | cons a t =>
    have := hpos a (by simp)
    simp
    omega

/-- Facts about a successful counter measurement: it returns exactly `n`
positive runs whose span fits inside the row after `start`. -/
theorem recordRuns_spec (row : List Bool) (start n : Nat) (w : List Nat)
    (h : recordRuns row start n = some w) :
    w.length = n ∧ (∀ x ∈ w, 0 < x) ∧ w.sum ≤ row.length - start ∧
      (0 < n → start < row.length) := by
  simp only [recordRuns] at h
  split at h
  · rename_i hle
    have hw : w = (rle (row.drop start)).take n := by
      simpa using h.symm
    subst hw
    refine ⟨by simp [Nat.min_eq_left hle], ?_, ?_, ?_⟩
    · intro x hx
      exact rle_pos _ x (List.mem_of_mem_take hx)
    · have h1 := sum_take_le (rle (row.drop start)) n
      have h2 := rle_sum (row.drop start)
      simp at h2
      omega
    · intro hn
      have h1 := rle_length (row.drop start)
      have h2 : (row.drop start).length = row.length - start := by simp
      omega
  · exact absurd h (by simp)

/-- C6: a row shorter than the minimum width of a full guard pattern (one
pixel per run) makes `FindStartGuardPattern` and `FindGuardPattern` return
`NotFound`; the search functions are total over arbitrary rows and
offsets, so no input row causes an out-of-bounds access. -/
theorem guard_search_short_row_not_found :
    (∀ row : List Bool, row.length < START_GUARD.length →
        FindStartGuardPattern row = none) ∧
      (∀ (row : List Bool) (rowOffset : Nat) (whiteFirst : Bool) (pattern : List Nat),
        row.length < pattern.length →
        FindGuardPattern row rowOffset whiteFirst pattern = none) := by
  constructor
  · intro row h
    rw [FindStartGuardPattern,
      doFindGuardPattern_short row 0 false START_GUARD h,
      doFindGuardPattern_short row 0 true START_GUARD h]
  · intro row rowOffset whiteFirst pattern h
    exact doFindGuardPattern_short row rowOffset whiteFirst pattern h

/-- C6 witness: a two-pixel row cannot hold the three-run start guard. -/
theorem guard_search_short_row_not_found_witness :
    FindStartGuardPattern (List.replicate 2 true) = none :=
  guard_search_short_row_not_found.1 (List.replicate 2 true) (by decide)

/-- C7: every guard range returned by `FindStartGuardPattern`,
`FindGuardPattern` (on a nonempty pattern) or `decodeEnd` satisfies
`0 ≤ begin`, `begin < end` and `end ≤ row.length`. -/
theorem guard_range_bounds :
    (∀ (row : List Bool) (b e : Nat), FindStartGuardPattern row = some (b, e) →
        0 ≤ b ∧ b < e ∧ e ≤ row.length) ∧
      (∀ (row : List Bool) (rowOffset : Nat) (whiteFirst : Bool)
          (pattern : List Nat) (b e : Nat), pattern ≠ [] →
        FindGuardPattern row rowOffset whiteFirst pattern = some (b, e) →
        0 ≤ b ∧ b < e ∧ e ≤ row.length) ∧
      (∀ (row : List Bool) (endStart b e : Nat), decodeEnd row endStart = some (b, e) →
        0 ≤ b ∧ b < e ∧ e ≤ row.length) := by
  have hstart : START_GUARD ≠ [] := by simp [START_GUARD]
  refine ⟨?_, ?_, ?_⟩
  · intro row b e h
    rw [FindStartGuardPattern] at h
    rcases h1 : DoFindGuardPattern row 0 false START_GUARD with _ | r
    · rw [h1] at h
      have := doFindGuardPattern_bounds row 0 true START_GUARD b e hstart h
      exact ⟨Nat.zero_le b, this.1, this.2⟩
    · rw [h1] at h
      rcases r with ⟨b', e'⟩
      simp at h
      rcases h with ⟨rfl, rfl⟩
      have := doFindGuardPattern_bounds row 0 false START_GUARD b' e' hstart h1
      exact ⟨Nat.zero_le b', this.1, this.2⟩
  · intro row rowOffset whiteFirst pattern b e hp h
    rw [FindGuardPattern] at h
    have := doFindGuardPattern_bounds row rowOffset whiteFirst pattern b e hp h
    exact ⟨Nat.zero_le b, this.1, this.2⟩
  · intro row endStart b e h
    rw [decodeEnd] at h
    split at h
    · rcases hr : recordRuns row endStart END_GUARD.length with _ | w <;>
        simp only [hr] at h
      · exact absurd h (by simp)
      · split at h
        · simp at h
          rcases h with ⟨rfl, rfl⟩
          have hspec := recordRuns_spec row endStart END_GUARD.length w hr
          have hwne : w ≠ [] := by
            intro hw
            rw [hw] at hspec
            simp [END_GUARD] at hspec
          have hsum := sum_pos_of_pos w hwne hspec.2.1
          have hstartlt := hspec.2.2.2 (by simp [END_GUARD])
          refine ⟨Nat.zero_le _, by omega, ?_⟩
          have := hspec.2.2.1
          omega
        · exact absurd h (by simp)
    · exact absurd h (by simp)

/-- C7 witness: the exact end guard in `endRow2` at column 1. -/
theorem guard_range_bounds_witness :
    0 ≤ 1 ∧ 1 < 4 ∧ 4 ≤ endRow2.length :=
  guard_range_bounds.2.2 endRow2 1 1 4 (by decide)

/-- C8: `decodeEnd` is anchored: a successful result always begins exactly
at `endStart`, and it succeeds precisely when the end guard matches within
tolerance starting at that offset (black module at `endStart`, measurable
runs, and the tolerance test passes). -/
theorem decodeEnd_anchored :
    (∀ (row : List Bool) (endStart b e : Nat),
        decodeEnd row endStart = some (b, e) → b = endStart) ∧
      (∀ (row : List Bool) (endStart : Nat),
        (∃ r, decodeEnd row endStart = some r) ↔
          row.getD endStart false = true ∧
            ∃ w, recordRuns row endStart END_GUARD.length = some w ∧
              acceptGuard w END_GUARD = true) := by
  constructor
  · intro row endStart b e h
    rw [decodeEnd] at h
    split at h
    · rcases hr : recordRuns row endStart END_GUARD.length with _ | w <;>
        simp only [hr] at h
      · exact absurd h (by simp)
      · split at h
        · simp at h
          exact h.1.symm
        · exact absurd h (by simp)
    · exact absurd h (by simp)
  · intro row endStart
    constructor
    · rintro ⟨r, h⟩
      rw [decodeEnd] at h
      split at h
      · rename_i hpix
        rcases hr : recordRuns row endStart END_GUARD.length with _ | w <;>
          simp only [hr] at h
        · exact absurd h (by simp)
        · split at h
          · rename_i hacc
            exact ⟨hpix, w, rfl, hacc⟩
          · exact absurd h (by simp)
      · exact absurd h (by simp)
    · rintro ⟨hpix, w, hw, hacc⟩
      refine ⟨(endStart, endStart + w.sum), ?_⟩
      rw [decodeEnd, if_pos hpix]
      simp only [hw]
      rw [if_pos hacc]

/-- C8 witness: the anchored end guard of `endRow2` begins at column 1. -/
theorem decodeEnd_anchored_witness : (1 : Nat) = 1 :=
  decodeEnd_anchored.1 endRow2 1 1 4 (by decide)

/-- Mapping multiplication by a constant over a list scales its sum. -/
theorem sum_map_mul (uN : Nat) (l : List Nat) :
    (l.map (fun p => uN * p)).sum = uN * l.sum := by
  induction l with
  | nil => simp
  | cons a t ih => simp [ih, Nat.mul_add]

/-- An exact scaled copy of a pattern produces zero deviations. -/
theorem devs_scaled (uN S : Nat) (l : List Nat) :
    (List.zip (l.map (fun p => uN * p)) l).map
        (fun q => Nat.dist (q.1 * S) (q.2 * (uN * S))) =
      List.replicate l.length 0 := by
  induction l with
  | nil => simp
  | cons a t ih =>
    simp only [List.map_cons, List.zip_cons_cons, List.length_cons, List.replicate_succ,
      List.map, ih]
    congr 1
    have h : uN * a * S = a * (uN * S) := by ring
    rw [h, Nat.dist_self]

/-- The guard matcher accepts a noise-free scaled copy of its pattern. -/
theorem acceptGuard_exact (uN : Nat) (pattern : List Nat) (hp : 0 < pattern.sum) :
    acceptGuard (pattern.map (fun p => uN * p)) pattern = true := by
  rw [acceptGuard]
  simp only [sum_map_mul, devs_scaled]
  simp [List.all_eq_true, List.mem_replicate, hp]

/-- The run decomposition of the scaled middle separator. -/
theorem rle_scaledMiddleRow (u : Nat) (hu : 0 < u) :
    rle (scaledMiddleRow u) = [u, u, u, u, u] := by
  rw [scaledMiddleRow]
  rw [rle_replicate_append false u _ hu
    (by rw [head?_replicate_append true u _ hu]; simp)]
  rw [rle_replicate_append true u _ hu
    (by rw [head?_replicate_append false u _ hu]; simp)]
  rw [rle_replicate_append false u _ hu
    (by rw [head?_replicate_append true u _ hu]; simp)]
  rw [rle_replicate_append true u _ hu
    (by
      obtain ⟨m, rfl⟩ : ∃ m, u = m + 1 := ⟨u - 1, by omega⟩
      rw [List.replicate_succ]
      simp)]
  rw [rle_replicate false u hu]

/-- The sliding loop rejects a run sequence none of whose windows pass the
tolerance test (windows start every other run, preserving polarity). -/
theorem guardLoop_none (pattern : List Nat) (n : Nat) :
    ∀ (rs : List Nat) (pos : Nat), rs.length ≤ n →
      (∀ k, acceptGuard ((rs.drop (2 * k)).take pattern.length) pattern = false) →
      guardLoop pattern pos rs = none := by
  induction n with
  | zero =>
    intro rs pos hlen hacc
    have hrs : rs = [] := List.length_eq_zero.mp (by omega)
    subst hrs
    by_cases h0 : 0 < pattern.length
    · rw [guardLoop, if_pos h0]
    · rw [guardLoop, if_neg h0]
      have h := hacc 0
      simp at h
      rw [if_neg (by simp [h])]
  | succ n ih =>
    intro rs pos hlen hacc
    match rs with
    | [] =>
      by_cases h0 : 0 < pattern.length
      · rw [guardLoop, if_pos h0]
      · rw [guardLoop, if_neg h0]
        have h := hacc 0
        simp at h
        rw [if_neg (by simp [h])]
    | [r] =>
      by_cases h0 : 1 < pattern.length
      · rw [guardLoop, if_pos h0]
      · rw [guardLoop, if_neg h0]
        have h := hacc 0
        simp only [Nat.mul_zero, List.drop_zero] at h
        rw [if_neg (by simp [h])]
    | r1 :: r2 :: rest =>
      by_cases h0 : (r1 :: r2 :: rest).length < pattern.length
      · rw [guardLoop, if_pos h0]
      · rw [guardLoop, if_neg h0]
        have h := hacc 0
        simp only [Nat.mul_zero, List.drop_zero] at h
        rw [if_neg (by simp [h])]
        have hsh : ∀ k, (r1 :: r2 :: rest).drop (2 * (k + 1)) = rest.drop (2 * k) := by
          intro k
          have h2 : 2 * (k + 1) = 2 * k + 1 + 1 := by omega
          rw [h2, List.drop_succ_cons, List.drop_succ_cons]
        refine ih rest (pos + r1 + r2) (by simp at hlen ⊢; omega) fun k => ?_
        rw [← hsh k]
        exact hacc (k + 1)

/-- C5: on a row holding an exact noise-free copy of `MIDDLE_PATTERN`
scaled by any positive unit width `u` (after an arbitrary black prefix),
`FindGuardPattern` succeeds with a guard range of width
`u * MIDDLE_PATTERN.sum` at the first window, and in general it returns
`NotFound` when no window of the row passes the tolerance test. -/
theorem findGuardPattern_scaled_middle :
    (∀ u b : Nat, 0 < u →
        FindGuardPattern (List.replicate b true ++ scaledMiddleRow u) 0 true
            MIDDLE_PATTERN =
          some (b, b + u * MIDDLE_PATTERN.sum)) ∧
      (∀ (row : List Bool) (rowOffset : Nat) (whiteFirst : Bool)
          (pattern : List Nat) (p : Nat),
        nextIndexOfColor row rowOffset (!whiteFirst) = some p →
        (∀ k, acceptGuard (((rle (row.drop p)).drop (2 * k)).take pattern.length)
            pattern = false) →
        FindGuardPattern row rowOffset whiteFirst pattern = none) := by
  constructor
  · intro u b hu
    rw [FindGuardPattern, DoFindGuardPattern]
    have hfind :
        nextIndexOfColor (List.replicate b true ++ scaledMiddleRow u) 0 false = some b := by
      rw [nextIndexOfColor, List.drop_zero]
      have hh : (scaledMiddleRow u).head? = some false := by
        rw [scaledMiddleRow]
        exact head?_replicate_append false u _ hu
      have hrepl := findColorFrom_replicate false (scaledMiddleRow u) hh b
      rw [Bool.not_false] at hrepl
      rw [hrepl]
      simp
    simp only [Bool.not_true, hfind]
    have hdrop : (List.replicate b true ++ scaledMiddleRow u).drop b = scaledMiddleRow u :=
      List.drop_left' (by simp)
    rw [hdrop, rle_scaledMiddleRow u hu]
    rw [guardLoop, if_neg (by simp [MIDDLE_PATTERN])]
    rw [List.take_of_length_le (by simp [MIDDLE_PATTERN])]
    have hacc : acceptGuard [u, u, u, u, u] MIDDLE_PATTERN = true := by
      have h1 : MIDDLE_PATTERN.map (fun p => u * p) = [u, u, u, u, u] := by
        simp [MIDDLE_PATTERN]
      rw [← h1]
      exact acceptGuard_exact u MIDDLE_PATTERN (by simp [MIDDLE_PATTERN])
    rw [if_pos hacc]
    simp [MIDDLE_PATTERN]
    omega
  · intro row rowOffset whiteFirst pattern p hnext hacc
    rw [FindGuardPattern, DoFindGuardPattern]
    simp only [hnext]
    exact guardLoop_none pattern (rle (row.drop p)).length (rle (row.drop p)) p le_rfl hacc

/-- C5 witness: the middle separator at unit width 2 after a black prefix
of 3 pixels is found at columns 3 to 13. -/
theorem findGuardPattern_scaled_middle_witness :
    FindGuardPattern (List.replicate 3 true ++ scaledMiddleRow 2) 0 true MIDDLE_PATTERN =
      some (3, 3 + 2 * MIDDLE_PATTERN.sum) :=
  findGuardPattern_scaled_middle.1 2 3 (by decide)

/-- The score minimiser fails exactly on an empty candidate list. -/
theorem argmin?_eq_none (l : List Nat) : argmin? l = none ↔ l = [] := by
  cases l with
  | nil => simp [argmin?]
  | cons a t =>
    rcases h : argmin? t with _ | ⟨j, b⟩
    · simp [argmin?, h]
    · simp only [argmin?, h]
      split <;> simp

/-- The score minimiser returns a valid index of a minimal score. -/
theorem argmin?_spec (l : List Nat) :
    ∀ i v, argmin? l = some (i, v) →
      i < l.length ∧ l.getD i 0 = v ∧ ∀ j, j < l.length → v ≤ l.getD j 0 := by
  induction l with
  | nil => intro i v h; simp [argmin?] at h
  | cons a t ih =>
    intro i v h
    rw [argmin?] at h
    rcases ht : argmin? t with _ | ⟨j', b⟩ <;> simp only [ht] at h
    · have hte : t = [] := (argmin?_eq_none t).mp ht
      subst hte
      simp at h
      rcases h with ⟨rfl, rfl⟩
      refine ⟨by simp, by simp, ?_⟩
      intro j hj
      have hj0 : j = 0 := by simp at hj; omega
      subst hj0
      simp
    · have hspec := ih j' b ht
      split at h
      · rename_i hab
        simp at h
        rcases h with ⟨rfl, rfl⟩
        refine ⟨by simp, by simp, ?_⟩
        intro j hj
        cases j with
        | zero => simp
        | succ k =>
          simp only [List.getD_cons_succ]
          have hk : k < t.length := by simp at hj; omega
          exact le_trans hab (hspec.2.2 k hk)
      · rename_i hab
        simp at h
        rcases h with ⟨rfl, rfl⟩
        refine ⟨by simp; omega, by simpa using hspec.2.1, ?_⟩
        intro j hj
        cases j with
        | zero =>
          simp
          omega
        | succ k =>
          simp only [List.getD_cons_succ]
          exact hspec.2.2 k (by simp at hj; omega)

/-- The digit matcher's selection succeeds on index `i` exactly when `i`
is a valid candidate whose score clears the maximum-variance threshold
and every other candidate lies outside the ambiguity margin. -/
theorem selectBest_eq_some_iff (scores : List Nat) (i : Nat) :
    selectBest scores = some i ↔
      (i < scores.length ∧ scores.getD i 0 < MAX_AVG_VARIANCE ∧
        ∀ j, j < scores.length → j ≠ i →
          scores.getD i 0 + AMBIGUITY_MARGIN < scores.getD j 0) := by
  have hM : 0 < AMBIGUITY_MARGIN := by decide
  constructor
  · intro h
    rw [selectBest] at h
    rcases ha : argmin? scores with _ | ⟨i', v⟩ <;> simp only [ha] at h
    · exact absurd h (by simp)
    · split at h
      · rename_i hguard
        simp at h
        subst h
        rw [Bool.and_eq_true] at hguard
        obtain ⟨h1, h2⟩ := hguard
        have hspec := argmin?_spec scores i' v ha
        have hv : v < MAX_AVG_VARIANCE := by simpa using h1
        refine ⟨hspec.1, by rw [hspec.2.1]; exact hv, ?_⟩
        intro j hj hne
        have := List.all_eq_true.mp h2 j (List.mem_range.mpr hj)
        rw [hspec.2.1]
        simpa [hne] using this
      · exact absurd h (by simp)
  · rintro ⟨hi, hlt, hmarg⟩
    rw [selectBest]
    rcases ha : argmin? scores with _ | ⟨i', v⟩
    · have := (argmin?_eq_none scores).mp ha
      subst this
      simp at hi
    · simp only []
      have hspec := argmin?_spec scores i' v ha
      have hii : i' = i := by
        by_contra hne
        have h1 := hmarg i' hspec.1 hne
        have h2 := hspec.2.2 i hi
        rw [hspec.2.1] at h1
        omega
      subst hii
      have hguard : (decide (v < MAX_AVG_VARIANCE) &&
          (List.range scores.length).all
            (fun j => (j == i') || decide (v + AMBIGUITY_MARGIN < scores.getD j 0))) = true := by
        rw [Bool.and_eq_true]
        refine ⟨by rw [← hspec.2.1]; simpa using hlt, ?_⟩
        rw [List.all_eq_true]
        intro j hj
        rw [List.mem_range] at hj
        by_cases hji : j = i'
        · simp [hji]
        · have := hmarg j hj hji
          rw [← hspec.2.1]
          simpa [hji] using this
      rw [if_pos hguard]

/-- C3: on a measured digit cell, `DecodeDigit` succeeds exactly when some
candidate's variance score is below the maximum-variance threshold with
every other candidate outside the ambiguity margin (which makes it the
unique lowest score); the decoded digit is that candidate's table index
modulo 10 and the offset is the column after the fourth run; when no
candidate clears both thresholds, it returns `NotFound`. -/
theorem decodeDigit_selection (row : List Bool) (rowOffset : Nat)
    (pats : List (List Nat)) (cs : List Nat)
    (h : recordRuns row rowOffset 4 = some cs) :
    (∀ d r, DecodeDigit row rowOffset pats = some (d, cs, r) ↔
        (r = rowOffset + cs.sum ∧ ∃ i, i < pats.length ∧ d = i % 10 ∧
          (pats.map (patternVariance cs)).getD i 0 < MAX_AVG_VARIANCE ∧
          ∀ j, j < pats.length → j ≠ i →
            (pats.map (patternVariance cs)).getD i 0 + AMBIGUITY_MARGIN <
              (pats.map (patternVariance cs)).getD j 0)) ∧
      ((∀ i, i < pats.length →
          ¬((pats.map (patternVariance cs)).getD i 0 < MAX_AVG_VARIANCE ∧
            ∀ j, j < pats.length → j ≠ i →
              (pats.map (patternVariance cs)).getD i 0 + AMBIGUITY_MARGIN <
                (pats.map (patternVariance cs)).getD j 0)) →
        DecodeDigit row rowOffset pats = none) := by
  constructor
  · intro d r
    constructor
    · intro hdd
      rw [DecodeDigit] at hdd
      simp only [h] at hdd
      rcases hb : selectBest (pats.map (patternVariance cs)) with _ | i <;>
        simp only [hb] at hdd
      · exact absurd hdd (by simp)
      · have hsel := (selectBest_eq_some_iff _ i).mp hb
        simp at hdd
        obtain ⟨hd1, hd2⟩ := hdd
        refine ⟨hd2.symm, i, by simpa using hsel.1, hd1.symm, hsel.2.1, ?_⟩
        intro j hj hne
        exact hsel.2.2 j (by simpa using hj) hne
    · rintro ⟨rfl, i, hi, rfl, hlt, hmarg⟩
      rw [DecodeDigit]
      simp only [h]
      have hb : selectBest (pats.map (patternVariance cs)) = some i := by
        rw [selectBest_eq_some_iff]
        exact ⟨by simpa using hi, hlt, fun j hj hne => hmarg j (by simpa using hj) hne⟩
      simp only [hb]
  · intro hno
    rw [DecodeDigit]
    simp only [h]
    rcases hb : selectBest (pats.map (patternVariance cs)) with _ | i
    · simp
    · have hsel := (selectBest_eq_some_iff _ i).mp hb
      have hi : i < pats.length := by simpa using hsel.1
      exact absurd ⟨hsel.2.1, fun j hj hne => hsel.2.2 j (by simpa using hj) hne⟩
        (hno i hi)

/-- C3 witness: on the exact cell of digit 0 against the L table, the
matcher decodes digit `0 % 10` and consumes the four runs. -/
theorem decodeDigit_selection_witness :
    DecodeDigit digitRow 0 L_PATTERNS = some (0 % 10, digitCounters, 0 + digitCounters.sum) := by
  have h := decodeDigit_selection digitRow 0 L_PATTERNS digitCounters (by decide)
  exact (h.1 (0 % 10) (0 + digitCounters.sum)).mpr
    ⟨rfl, 0, by decide, rfl, by decide, by decide⟩

/-- C4: a successful `DecodeDigit` measured its counters as the first four
runs at the offset; they are positive and sum exactly to
`resultOffset - rowOffset`, so the returned offset is the first column
after the fourth run. -/
theorem decodeDigit_counters (row : List Bool) (rowOffset : Nat)
    (pats : List (List Nat)) (d : Nat) (cs : List Nat) (r : Nat)
    (h : DecodeDigit row rowOffset pats = some (d, cs, r)) :
    cs.sum = r - rowOffset ∧ rowOffset ≤ r ∧ cs.length = 4 ∧
      recordRuns row rowOffset 4 = some cs ∧ ∀ x ∈ cs, 0 < x := by
  rw [DecodeDigit] at h
  rcases hr : recordRuns row rowOffset 4 with _ | cs' <;> simp only [hr] at h
  · exact absurd h (by simp)
  · rcases hb : selectBest (pats.map (patternVariance cs')) with _ | i <;>
      simp only [hb] at h
    · exact absurd h (by simp)
    · simp at h
      obtain ⟨h1, rfl, h3⟩ := h
      have hspec := recordRuns_spec row rowOffset 4 _ hr
      exact ⟨by omega, by omega, hspec.1, rfl, hspec.2.1⟩

/-- C4 witness: the digit-0 cell consumes columns 0 to 7 with counters
summing to the offset delta. -/
theorem decodeDigit_counters_witness :
    digitCounters.sum = 7 - 0 ∧ 0 ≤ 7 ∧ digitCounters.length = 4 ∧
      recordRuns digitRow 0 4 = some digitCounters ∧ ∀ x ∈ digitCounters, 0 < x :=
  decodeDigit_counters digitRow 0 L_PATTERNS 0 digitCounters 7 (by decide)

/-- C9: the static pattern tables are nonempty constants of the declared
shapes (5-run separator, 10 and 20 four-run digit encodings); every
operation of the embedding is a pure function of the row and the tables,
so no call mutates the row or the tables. -/
theorem pattern_tables_constant :
    MIDDLE_PATTERN ≠ [] ∧ MIDDLE_PATTERN.length = 5 ∧
      L_PATTERNS ≠ [] ∧ L_PATTERNS.length = 10 ∧
      (∀ p ∈ L_PATTERNS, p.length = 4) ∧
      L_AND_G_PATTERNS ≠ [] ∧ L_AND_G_PATTERNS.length = 20 ∧
      (∀ p ∈ L_AND_G_PATTERNS, p.length = 4) := by
  decide

/-- Reading a list back through its index function rebuilds the list. -/
theorem range_map_getD {α : Type} (l : List α) (dflt : α) :
    (List.range l.length).map (fun i => l.getD i dflt) = l := by
  induction l with
  | nil => simp
  | cons a t ih =>
    rw [List.length_cons, List.range_succ_eq_map, List.map_cons, List.map_map]
    simp only [Function.comp_def, Nat.succ_eq_add_one, List.getD_cons_zero,
      List.getD_cons_succ]
    rw [ih]

/-- C10: the container-level template wrappers agree with the private
pointer-based functions applied to the container's base pointer and size
(modelled as the index function and the length). -/
theorem template_matches_pointer_version :
    (∀ (row : List Bool) (rowOffset : Nat) (whiteFirst : Bool) (pattern : List Nat),
        FindGuardPattern row rowOffset whiteFirst pattern =
          FindGuardPatternPtr row rowOffset whiteFirst (fun i => pattern.getD i 0)
            pattern.length) ∧
      (∀ (row : List Bool) (rowOffset : Nat) (patterns : List (List Nat)),
        DecodeDigit row rowOffset patterns =
          DecodeDigitPtr row rowOffset (fun i => patterns.getD i []) patterns.length) := by
  constructor
  · intro row rowOffset whiteFirst pattern
    rw [FindGuardPattern, FindGuardPatternPtr, range_map_getD]
  · intro row rowOffset patterns
    rw [DecodeDigitPtr, range_map_getD]

/-- C10 witness: the wrappers agree on a concrete call. -/
theorem template_matches_pointer_version_witness :
    FindGuardPattern [] 0 true START_GUARD =
      FindGuardPatternPtr [] 0 true (fun i => START_GUARD.getD i 0) START_GUARD.length :=
  template_matches_pointer_version.1 [] 0 true START_GUARD

end OneD

end ZXing
